import Mathlib

/-!
Shallow embedding of the context-assembly core of `src/main.py`
(class `ProjectContextChat`): whitespace token estimation, per-file
summarization, the modification-time file cache, priority ordering,
budgeted context building, history trimming, exclusion rules, and the
chat turn's history-append control flow.

Text is modelled as `List Char`.  Python's `str.split()` splits on runs
of whitespace; file contents in this development use ASCII whitespace,
modelled by `isSpace` below.  Timestamps (`st_mtime`) are only ever
compared for equality, so they are modelled as `Nat`.
-/

namespace DevAssistant

/-- ASCII whitespace, the characters `str.split()` splits on for the
ASCII fragment (space, tab, newline, carriage return, vertical tab,
form feed). -/
def isSpace (c : Char) : Bool :=
  c = ' ' || c = '\t' || c = '\n' || c = '\r' || c = '\x0b' || c = '\x0c'

/-- Worker for `pySplit`: `acc` holds the (reversed) characters of the
token currently being scanned. -/
def pySplitAux : List Char → List Char → List (List Char)
  | [], [] => []
  | [], acc => [acc.reverse]
  | c :: cs, acc =>
    if isSpace c then
      match acc with
      | [] => pySplitAux cs []
      | _ :: _ => acc.reverse :: pySplitAux cs []
    else
      pySplitAux cs (c :: acc)

/-- Python `text.split()` (no argument): maximal runs of non-whitespace
characters, with empty strings discarded. -/
def pySplit (s : List Char) : List (List Char) :=
  pySplitAux s []

/-- `ProjectContextChat._estimate_tokens`: `len(text.split())`. -/
def estimate (s : List Char) : Nat :=
  (pySplit s).length

/-- Python `" ".join(tokens)`. -/
def joinSpace : List (List Char) → List Char
  | [] => []
  | [t] => t
  | t :: ts => t ++ ' ' :: joinSpace ts

/-- The literal truncation marker spliced into summarized files:
`"\n[... conteúdo resumido por limite de tokens ...]\n"`. -/
def marker : List Char :=
  "\n[... conteúdo resumido por limite de tokens ...]\n".toList

/-- The marker without its surrounding newlines. -/
def markerMid : List Char :=
  "[... conteúdo resumido por limite de tokens ...]".toList

/-- Python `tokens[-half:]`: for `half = 0` this is the WHOLE list
(`tokens[-0:] == tokens[0:]`), otherwise the last `half` elements. -/
def pyTailSlice (l : List (List Char)) (half : Nat) : List (List Char) :=
  if half = 0 then l else l.drop (l.length - half)

/-- `ProjectContextChat._summarize_file`: return the content unchanged
when it has at most `maxTokens` whitespace tokens, otherwise keep the
first `maxTokens / 2` tokens and the tokens of `tokens[-maxTokens//2:]`,
joined by single spaces around the literal marker. -/
def summarizeFile (content : List Char) (maxTokens : Nat) : List Char :=
  let tokens := pySplit content
  if tokens.length ≤ maxTokens then content
  else
    let half := maxTokens / 2
    joinSpace (tokens.take half) ++ marker ++ joinSpace (pyTailSlice tokens half)

example : pySplit "a  b\nc".toList = [['a'], ['b'], ['c']] := by decide
example : estimate "hello world ".toList = 2 := by decide
example : summarizeFile "a b c".toList 5 = "a b c".toList := by decide
example : summarizeFile "a b c d".toList 2 =
    ("a" ++ "\n[... conteúdo resumido por limite de tokens ...]\n" ++ "d").toList := by
  decide

/-- A project file, identified by its path relative to the project
root, as a list of path segments.  All discovered files share the
project root as a literal string prefix (followed by `/`), so
comparing full-path strings in the sort key is the same as comparing
relative-path strings; the model therefore works with relative paths
throughout. -/
abbrev RelPath := List (List Char)

/-- `str(path)` restricted to the relative part: segments joined by
`/`. -/
def pathStr (p : RelPath) : List Char :=
  List.intercalate ['/'] p

/-- The final path component (`path.name`), empty for an empty path. -/
def nameOf (p : RelPath) : List Char :=
  p.getLast?.getD []

/-- Index of the last `.` in a name, if any (Python `name.rfind('.')`
restricted to the found case). -/
def lastDotIdx (name : List Char) : Option Nat :=
  (name.enum.filterMap (fun q => if q.2 = '.' then some q.1 else none)).getLast?

/-- `pathlib.PurePath.suffix` of a final component: the part of the
name from its last dot on, unless that dot is the first or the last
character, in which case the suffix is empty. -/
def pySuffix (name : List Char) : List Char :=
  match lastDotIdx name with
  | none => []
  | some i => if 0 < i ∧ i < name.length - 1 then name.drop i else []

/-- The fixed extension priority list of `_build_project_context`. -/
def priorityOrder : List (List Char) :=
  [".py".toList, ".md".toList, ".env".toList, ".yml".toList, ".toml".toList]

/-- `next((i for i, ext in enumerate(priority_order) if x.suffix == ext),
len(priority_order))`: the index of the extension in the priority list,
or the list's length when absent. -/
def priorityIdx (p : RelPath) : Nat :=
  priorityOrder.findIdx (fun ext => ext == pySuffix (nameOf p))

/-- Python string `<=` on code points (lexicographic). -/
def strLe : List Char → List Char → Bool
  | [], _ => true
  | _ :: _, [] => false
  | a :: as, b :: bs => a < b || (a = b && strLe as bs)

/-- The sort key comparison of `_build_project_context`: ascending on
the tuple `(priority index, full path string)`. -/
def keyLe (a b : RelPath) : Bool :=
  priorityIdx a < priorityIdx b || (priorityIdx a = priorityIdx b && strLe (pathStr a) (pathStr b))

/-- `files.sort(key=...)`: a stable sort ascending by `keyLe`.  Python's
Timsort and `List.insertionSort` are both stable, and a stable sort is
uniquely determined by its total preorder, so the two agree. -/
def sortFiles (files : List RelPath) : List RelPath :=
  files.insertionSort (fun a b => keyLe a b = true)

/-- The filesystem state seen for one file: modification timestamp and
raw text content.  `st_mtime` is only ever compared for equality, so it
is modelled as `Nat`. -/
structure FileData where
  mtime : Nat
  content : List Char
  deriving DecidableEq

/-- One record of `self.file_cache`:
`{"timestamp": ..., "content": summarized, "tokens": raw token count}`. -/
structure CacheRecord where
  timestamp : Nat
  content : List Char
  tokens : Nat
  deriving DecidableEq

/-- The `self.file_cache` dict, keyed by file path. -/
abbrev Cache := List (RelPath × CacheRecord)

/-- Dict lookup `self.file_cache[path]` (first binding from the head). -/
def cacheFind : Cache → RelPath → Option CacheRecord
  | [], _ => none
  | (q, r) :: rest, p => if q = p then some r else cacheFind rest p

/-- Dict assignment `self.file_cache[path] = record`: the new binding
shadows any older one under `cacheFind`. -/
def cacheInsert (c : Cache) (p : RelPath) (r : CacheRecord) : Cache :=
  (p, r) :: c

/-- The observable outcome of the cache-or-read block of
`_build_project_context` for one file: the `(content, token_count)`
pair used by the builder, the updated cache, and whether the underlying
file was read. -/
structure LoadResult where
  content : List Char
  tokens : Nat
  cache : Cache
  didRead : Bool
  deriving DecidableEq

/-- The miss path: read the file, count tokens on the raw content,
summarize with the fixed per-file cap 500, store the record. -/
def loadFresh (fs : RelPath → FileData) (cache : Cache) (p : RelPath) : LoadResult :=
  let mtime := (fs p).mtime
  let raw := (fs p).content
  let tokens := estimate raw
  let content := summarizeFile raw 500
  ⟨content, tokens, cacheInsert cache p ⟨mtime, content, tokens⟩, true⟩

/-- Lines 97–115 of `src/main.py`: return the cached
`(content, tokens)` when a record exists whose stored timestamp equals
the file's current `st_mtime`, otherwise re-read and re-store. -/
def getOrLoad (fs : RelPath → FileData) (cache : Cache) (p : RelPath) : LoadResult :=
  match cacheFind cache p with
  | some r =>
    if r.timestamp = (fs p).mtime then ⟨r.content, r.tokens, cache, false⟩
    else loadFresh fs cache p
  | none => loadFresh fs cache p

/-- One `f"# {relative_path}\n{content}"` context block. -/
def mkBlock (p : RelPath) (content : List Char) : List Char :=
  "# ".toList ++ pathStr p ++ '\n' :: content

/-- State of the budget loop of `_build_project_context`. -/
structure BuildState where
  blocks : List (List Char)
  total : Nat
  cache : Cache
  deriving DecidableEq

/-- The budget loop (lines 95–122): load each file through the cache,
break at the first file whose token count would push the accumulated
total over the budget (the cache keeps that file's fresh record), else
append its block and add its tokens. -/
def buildLoop (fs : RelPath → FileData) (maxT : Nat) :
    List RelPath → Cache → Nat → BuildState
  | [], cache, total => ⟨[], total, cache⟩
  | p :: rest, cache, total =>
    let r := getOrLoad fs cache p
    if total + r.tokens > maxT then ⟨[], total, r.cache⟩
    else
      let s := buildLoop fs maxT rest r.cache (total + r.tokens)
      ⟨mkBlock p r.content :: s.blocks, s.total, s.cache⟩

/-- Lines 127–134 of `src/main.py`, with Python's conditional-expression
precedence made explicit: the whole header-plus-list-plus-ellipsis
string is produced only when more than 20 files were discovered;
otherwise `project_summary` is the empty string. -/
def projectSummary (projName : List Char) (files : List RelPath) : List Char :=
  if files.length > 20 then
    "Estrutura do projeto '".toList ++ projName ++ "':\n".toList
      ++ List.intercalate ['\n'] ((files.take 20).map (fun f => "- ".toList ++ pathStr f))
      ++ "\n[...]\n".toList
  else []

/-- `_build_project_context`: sort the discovered files, run the budget
loop from an empty accumulator, and return
`f"{project_summary}\n\n" + "\n\n".join(context)` with the final
cache. -/
def buildContext (fs : RelPath → FileData) (files : List RelPath) (cache : Cache)
    (maxT : Nat) (projName : List Char) : List Char × Cache :=
  let sorted := sortFiles files
  let s := buildLoop fs maxT sorted cache 0
  (projectSummary projName sorted ++ "\n\n".toList
    ++ List.intercalate "\n\n".toList s.blocks, s.cache)

/-- Python `line.strip()`: remove leading and trailing whitespace. -/
def pyStrip (s : List Char) : List Char :=
  ((s.dropWhile isSpace).reverse.dropWhile isSpace).reverse

/-- The loop of `_load_history` over `reversed(f.readlines())` (most
recent line first): break as soon as the next line's tokens would push
the running count over `maxT`, otherwise `lines.insert(0, line.strip())`
and add its tokens.  The result is in chronological order. -/
def loadRecentAux (maxT : Nat) : List (List Char) → Nat → List (List Char)
  | [], _ => []
  | l :: rest, tokenCount =>
    if tokenCount + estimate l > maxT then []
    else loadRecentAux maxT rest (tokenCount + estimate l) ++ [pyStrip l]

/-- `_load_history`: trim the log lines to the token budget from the
most recent backwards and join the retained lines with newlines. -/
def loadRecent (lines : List (List Char)) (maxT : Nat) : List Char :=
  List.intercalate ['\n'] (loadRecentAux maxT lines.reverse 0)

/-- `fnmatch`-style glob matching for the pattern vocabulary the
configuration surface uses (literals, `*`, `?`; no character classes):
`*` matches any run of characters, `?` any single character. -/
def globMatch : List Char → List Char → Bool
  | [], [] => true
  | [], _ :: _ => false
  | '*' :: ps, [] => globMatch ps []
  | '*' :: ps, c :: cs => globMatch ps (c :: cs) || globMatch ('*' :: ps) cs
  | '?' :: _, [] => false
  | '?' :: ps, _ :: cs => globMatch ps cs
  | _ :: _, [] => false
  | p :: ps, c :: cs => p = c && globMatch ps cs
termination_by p t => (t.length, p.length)

/-- `path.match(pattern)` for a single-segment relative pattern:
pathlib matches such a pattern against the path's final component
only. -/
def pathMatch (parts : RelPath) (pat : List Char) : Bool :=
  match parts.getLast? with
  | some nm => globMatch pat nm
  | none => false

/-- The exclusion test of `_walk_project_files` (lines 52–56), exactly
as written: the outer `any` ranges over the patterns, and its body is
`path.match(pattern) or any(excl in path.parts for excl in
self.exclude_patterns)` — the inner `any` ignores the outer loop
variable. -/
def isExcluded (patterns : List (List Char)) (parts : RelPath) : Bool :=
  patterns.any (fun pat =>
    pathMatch parts pat || patterns.any (fun excl => parts.contains excl))

/-- `_walk_project_files` restricted to its filtering decision: keep
every candidate file whose path survives the exclusion test. -/
def walkKeep (patterns : List (List Char)) (candidates : List RelPath) : List RelPath :=
  candidates.filter (fun p => !isExcluded patterns p)

/-- One chunk of the model's streamed reply: `some text` is a fragment
delivered by the iterator, `none` marks the iterator raising before the
stream was fully consumed. -/
abbrev StreamEvent := Option (List Char)

/-- The streaming loop of `chat`: accumulate `response += token`
fragment by fragment, propagating an exception raised mid-stream. -/
def streamAccum : List StreamEvent → List Char → Except Unit (List Char)
  | [], acc => Except.ok acc
  | some c :: rest, acc => streamAccum rest (acc ++ c)
  | none :: _, _ => Except.error ()

/-- The history line `f"User: {prompt}\n"` written after a successful
turn (without its trailing newline, which the line-oriented log model
carries implicitly). -/
def userLine (prompt : List Char) : List Char :=
  "User: ".toList ++ prompt

/-- The history line `f"Assistant: {response}\n"` written after a
successful turn. -/
def assistantLine (response : List Char) : List Char :=
  "Assistant: ".toList ++ response

/-- The body of `chat` after the context and history are assembled:
consume the reply stream to completion and, only then, produce the two
history lines to append.  An exception anywhere in the stream aborts
the turn before any line is produced. -/
def chatAppendLines (prompt : List Char) (stream : List StreamEvent) :
    Except Unit (List (List Char)) :=
  match streamAccum stream [] with
  | Except.ok response => Except.ok [userLine prompt, assistantLine response]
  | Except.error e => Except.error e

/-- One full `chat` turn acting on the history log: the `try` block
appends the user and assistant lines after the stream is fully
consumed; the `except` handler only prints and leaves the log
untouched. -/
def chatTurn (historyLines : List (List Char)) (prompt : List Char)
    (stream : List StreamEvent) : List (List Char) :=
  match chatAppendLines prompt stream with
  | Except.ok newLines => historyLines ++ newLines
  | Except.error _ => historyLines

/-- Whether the first list is a prefix of the second (used to count
substring occurrences). -/
def isPre : List Char → List Char → Bool
  | [], _ => true
  | _ :: _, [] => false
  | a :: as, b :: bs => a = b && isPre as bs

/-- The number of positions of `s` at which `pat` occurs as a
contiguous substring. -/
def countOccur (pat : List Char) : List Char → Nat
  | [] => 0
  | s@(_ :: rest) => (if isPre pat s then 1 else 0) + countOccur pat rest

/-- The token count `getOrLoad` reports for a file, read off the cache
and filesystem state: the stored raw count when a record with matching
timestamp exists, the current raw content's count otherwise. -/
def tokenSpec (fs : RelPath → FileData) (cache : Cache) (p : RelPath) : Nat :=
  match cacheFind cache p with
  | some r => if r.timestamp = (fs p).mtime then r.tokens else estimate (fs p).content
  | none => estimate (fs p).content

/-- The content `getOrLoad` reports for a file: the stored summarized
content on a valid record, the freshly summarized current content
otherwise. -/
def contentSpec (fs : RelPath → FileData) (cache : Cache) (p : RelPath) : List Char :=
  match cacheFind cache p with
  | some r => if r.timestamp = (fs p).mtime then r.content else summarizeFile (fs p).content 500
  | none => summarizeFile (fs p).content 500

/-! ### Concrete inputs used by the example parts of the claims -/

/-- A text that is a fixed point of truncation at budget 4: its head,
marker and tail already have the truncated shape. -/
def tFix : List Char :=
  "a b\n[... conteúdo resumido por limite de tokens ...]\nc d".toList

/-- A two-token text. -/
def tAB : List Char :=
  "a b".toList

/-- A three-token text. -/
def tABC : List Char :=
  "a b c".toList

/-- A 100-token content: one hundred `w` tokens joined by spaces. -/
def content100 : List Char :=
  joinSpace (List.replicate 100 ['w'])

/-- Relative path `a.py`. -/
def pAf : RelPath := ["a.py".toList]

/-- Relative path `b.py`. -/
def pBf : RelPath := ["b.py".toList]

/-- Relative path `c.py`. -/
def pCf : RelPath := ["c.py".toList]

/-- Relative path `b.md`. -/
def pMd : RelPath := ["b.md".toList]

/-- Relative path `c.txt`. -/
def pTxt : RelPath := ["c.txt".toList]

/-- A filesystem in which every file has 100 tokens of content. -/
def fsHundred : RelPath → FileData := fun _ => ⟨0, content100⟩

/-- A filesystem in which every file holds the two-token text
`hello world`. -/
def fsHello : RelPath → FileData := fun _ => ⟨0, "hello world".toList⟩

/-- Oldest history line, five tokens. -/
def hl1 : List Char := "one line with five tokens\n".toList

/-- Second history line, five tokens. -/
def hl2 : List Char := "two line with five tokens\n".toList

/-- Third history line, five tokens. -/
def hl3 : List Char := "three line with five tokens\n".toList

/-- Newest history line, five tokens. -/
def hl4 : List Char := "four line with five tokens\n".toList

/-- The path `node_modules/pkg/index.js` of the exclusion example. -/
def nodeParts : RelPath :=
  ["node_modules".toList, "pkg".toList, "index.js".toList]

/-! ### Tokenizer lemmas -/

theorem pySplitAux_nonspace (t : List Char) (ht : ∀ c ∈ t, isSpace c = false) :
    ∀ rest acc : List Char,
      pySplitAux (t ++ rest) acc = pySplitAux rest (t.reverse ++ acc) := by
  induction t with
  | nil => intro rest acc; simp
  | cons c t ih =>
    intro rest acc
    have hc : isSpace c = false := ht c (List.mem_cons_self c t)
    have ht' : ∀ d ∈ t, isSpace d = false := fun d hd => ht d (List.mem_cons_of_mem c hd)
    simp only [List.cons_append, pySplitAux, hc, Bool.false_eq_true, if_false,
      List.append_eq]
    rw [ih ht' rest (c :: acc)]
    simp [List.append_assoc]

theorem pySplitAux_sep (sep : Char) (hs : isSpace sep = true) (ys : List Char) :
    ∀ xs acc : List Char,
      pySplitAux (xs ++ sep :: ys) acc = pySplitAux xs acc ++ pySplitAux ys [] := by
  intro xs
  induction xs with
  | nil =>
    intro acc
    cases acc with
    | nil => simp [pySplitAux, hs]
    | cons a as => simp [pySplitAux, hs]
  | cons c xs ih =>
    intro acc
    cases hc : isSpace c with
    | true =>
      cases acc with
      | nil => simpa [pySplitAux, hc] using ih []
      | cons a as => simpa [pySplitAux, hc] using ih []
    | false => simpa [pySplitAux, hc] using ih (c :: acc)

theorem pySplitAux_tokens (s : List Char) :
    ∀ acc, (∀ c ∈ acc, isSpace c = false) →
      ∀ tok ∈ pySplitAux s acc, tok ≠ [] ∧ ∀ c ∈ tok, isSpace c = false := by
  induction s with
  | nil =>
    intro acc hacc tok htok
    cases acc with
    | nil => simp [pySplitAux] at htok
    | cons a as =>
      simp [pySplitAux] at htok
      subst htok
      refine ⟨by simp, ?_⟩
      intro c hc
      simp at hc
      rcases hc with h | h
      · exact hacc c (by simp [h])
      · exact hacc c (by simp [h])
  | cons c s ih =>
    intro acc hacc tok htok
    cases hc : isSpace c with
    | true =>
      cases acc with
      | nil =>
        simp only [pySplitAux, hc, if_true] at htok
        exact ih [] (by simp) tok htok
      | cons a as =>
        simp only [pySplitAux, hc, if_true] at htok
        rcases List.mem_cons.mp htok with h | h
        · subst h
          refine ⟨by simp, ?_⟩
          intro d hd
          simp at hd
          rcases hd with h | h
          · exact hacc d (by simp [h])
          · exact hacc d (by simp [h])
        · exact ih [] (by simp) tok h
    | false =>
      simp only [pySplitAux, hc, Bool.false_eq_true, if_false] at htok
      refine ih (c :: acc) ?_ tok htok
      intro d hd
      rcases List.mem_cons.mp hd with h | h
      · subst h; exact hc
      · exact hacc d h

theorem pySplit_tokens (s : List Char) :
    ∀ tok ∈ pySplit s, tok ≠ [] ∧ ∀ c ∈ tok, isSpace c = false :=
  pySplitAux_tokens s [] (by simp)

theorem pySplitAux_token_whole (t : List Char) (hne : t ≠ [])
    (ht : ∀ c ∈ t, isSpace c = false) : pySplitAux t [] = [t] := by
  have h1 : pySplitAux (t ++ []) [] = pySplitAux [] (t.reverse ++ []) :=
    pySplitAux_nonspace t ht [] []
  rw [List.append_nil] at h1
  rw [h1, List.append_nil]
  have : t.reverse ≠ [] := by simpa using hne
  cases hr : t.reverse with
  | nil => exact absurd hr this
  | cons a as => simp [pySplitAux, ← hr]

theorem pySplit_joinSpace (toks : List (List Char))
    (h : ∀ tok ∈ toks, tok ≠ [] ∧ ∀ c ∈ tok, isSpace c = false) :
    pySplit (joinSpace toks) = toks := by
  induction toks with
  | nil => simp [joinSpace, pySplit, pySplitAux]
  | cons t ts ih =>
    cases ts with
    | nil =>
      have ht := h t (by simp)
      simpa [joinSpace, pySplit] using pySplitAux_token_whole t ht.1 ht.2
    | cons t2 ts2 =>
      have ht := h t (by simp)
      have h' : ∀ tok ∈ t2 :: ts2, tok ≠ [] ∧ ∀ c ∈ tok, isSpace c = false :=
        fun tok htok => h tok (List.mem_cons_of_mem t htok)
      show pySplit (t ++ ' ' :: joinSpace (t2 :: ts2)) = t :: t2 :: ts2
      unfold pySplit
      rw [pySplitAux_sep ' ' (by decide) (joinSpace (t2 :: ts2)) t []]
      rw [pySplitAux_token_whole t ht.1 ht.2]
      have := ih h'
      unfold pySplit at this
      rw [this]
      rfl

theorem joinSpace_chars (toks : List (List Char))
    (h : ∀ tok ∈ toks, ∀ c ∈ tok, isSpace c = false) :
    ∀ c ∈ joinSpace toks, c = ' ' ∨ isSpace c = false := by
  induction toks with
  | nil => simp [joinSpace]
  | cons t ts ih =>
    cases ts with
    | nil =>
      intro c hc
      exact Or.inr (h t (by simp) c hc)
    | cons t2 ts2 =>
      intro c hc
      show c = ' ' ∨ isSpace c = false
      have : c ∈ t ++ ' ' :: joinSpace (t2 :: ts2) := hc
      rcases List.mem_append.mp this with h1 | h1
      · exact Or.inr (h t (by simp) c h1)
      · rcases List.mem_cons.mp h1 with h2 | h2
        · exact Or.inl h2
        · exact ih (fun tok htok => h tok (List.mem_cons_of_mem t htok)) c h2

/-! ### Marker and occurrence-counting lemmas -/

theorem marker_eq : marker = '\n' :: (markerMid ++ ['\n']) := by decide

theorem markerMid_no_newline : ∀ c ∈ markerMid, c ≠ '\n' := by decide

theorem isPre_mem (p : List Char) :
    ∀ s, isPre p s = true → ∀ c ∈ p, c ∈ s := by
  induction p with
  | nil => simp
  | cons a as ih =>
    intro s hp c hc
    cases s with
    | nil => simp [isPre] at hp
    | cons b bs =>
      simp only [isPre, Bool.and_eq_true, decide_eq_true_eq] at hp
      rcases List.mem_cons.mp hc with h | h
      · subst h; exact hp.1 ▸ List.mem_cons_self _ _
      · exact List.mem_cons_of_mem b (ih bs hp.2 c h)

theorem isPre_head_ne (a b : Char) (pr s : List Char) (h : ¬ a = b) :
    isPre (a :: pr) (b :: s) = false := by
  simp [isPre, h]

theorem isPre_self_append (p : List Char) : ∀ t, isPre p (p ++ t) = true := by
  induction p with
  | nil => simp [isPre]
  | cons a as ih => intro t; simp [isPre, ih t]

theorem countOccur_append_no_newline (pm : List Char) :
    ∀ A s : List Char, (∀ c ∈ A, c ≠ '\n') →
      countOccur ('\n' :: pm) (A ++ s) = countOccur ('\n' :: pm) s := by
  intro A
  induction A with
  | nil => simp
  | cons c A ih =>
    intro s hA
    have hc : ¬ ('\n' : Char) = c := fun he => (hA c (by simp)) he.symm
    simp only [List.cons_append, countOccur, isPre_head_ne '\n' c pm _ hc,
      Bool.false_eq_true, if_false, Nat.zero_add]
    exact ih s (fun d hd => hA d (List.mem_cons_of_mem c hd))

theorem countOccur_marker_once (H T : List Char)
    (hH : ∀ c ∈ H, c ≠ '\n') (hT : ∀ c ∈ T, c ≠ '\n') :
    countOccur marker (H ++ marker ++ T) = 1 := by
  rw [marker_eq]
  have hshape : H ++ ('\n' :: (markerMid ++ ['\n'])) ++ T
      = H ++ ('\n' :: (markerMid ++ ['\n'] ++ T)) := by
    simp [List.append_assoc]
  rw [hshape]
  rw [countOccur_append_no_newline (markerMid ++ ['\n']) H
    ('\n' :: (markerMid ++ ['\n'] ++ T)) hH]
  have h1 : countOccur ('\n' :: (markerMid ++ ['\n']))
      ('\n' :: (markerMid ++ ['\n'] ++ T))
      = 1 + countOccur ('\n' :: (markerMid ++ ['\n'])) (markerMid ++ ['\n'] ++ T) := by
    have hpre : isPre ('\n' :: (markerMid ++ ['\n']))
        ('\n' :: (markerMid ++ '\n' :: T)) = true := by
      have := isPre_self_append ('\n' :: (markerMid ++ ['\n'])) T
      simpa [List.append_assoc] using this
    simp [countOccur, hpre]
  rw [h1]
  have hshape2 : markerMid ++ ['\n'] ++ T = markerMid ++ ('\n' :: T) := by
    simp [List.append_assoc]
  rw [hshape2]
  rw [countOccur_append_no_newline (markerMid ++ ['\n']) markerMid
    ('\n' :: T) markerMid_no_newline]
  have hpre2 : isPre ('\n' :: (markerMid ++ ['\n'])) ('\n' :: T) = false := by
    cases hp : isPre ('\n' :: (markerMid ++ ['\n'])) ('\n' :: T) with
    | false => rfl
    | true =>
      exfalso
      have hmem : ('\n' : Char) ∈ markerMid ++ ['\n'] := by simp
      have h2 : isPre (markerMid ++ ['\n']) T = true := by
        simpa [isPre] using hp
      have := isPre_mem (markerMid ++ ['\n']) T h2 '\n' hmem
      exact hT '\n' this rfl
  have hT0 : countOccur ('\n' :: (markerMid ++ ['\n'])) T = 0 := by
    have := countOccur_append_no_newline (markerMid ++ ['\n']) T [] hT
    simpa using this
  simp [countOccur, hpre2, hT0]

/-- The truncation branch of `_summarize_file`, written out: head tokens,
marker, tail tokens. -/
theorem summarizeFile_trunc (t : List Char) (maxTok : Nat)
    (h2 : 2 ≤ maxTok) (hgt : maxTok < estimate t) :
    summarizeFile t maxTok =
      joinSpace ((pySplit t).take (maxTok / 2)) ++ marker
        ++ joinSpace ((pySplit t).drop ((pySplit t).length - maxTok / 2)) := by
  have hlen : ¬ (pySplit t).length ≤ maxTok := by
    unfold estimate at hgt; omega
  have hhalf : ¬ maxTok / 2 = 0 := by omega
  unfold summarizeFile pyTailSlice
  simp [hlen, hhalf]

theorem pySplit_sep (sep : Char) (hs : isSpace sep = true) (xs ys : List Char) :
    pySplit (xs ++ sep :: ys) = pySplit xs ++ pySplit ys := by
  unfold pySplit
  exact pySplitAux_sep sep hs ys xs []

theorem pySplit_summarize_trunc (t : List Char) (maxTok : Nat)
    (h2 : 2 ≤ maxTok) (hgt : maxTok < estimate t) :
    pySplit (summarizeFile t maxTok)
      = (pySplit t).take (maxTok / 2) ++ pySplit markerMid
        ++ (pySplit t).drop ((pySplit t).length - maxTok / 2) := by
  rw [summarizeFile_trunc t maxTok h2 hgt]
  have htoks := pySplit_tokens t
  have htake : ∀ tok ∈ (pySplit t).take (maxTok / 2),
      tok ≠ [] ∧ ∀ c ∈ tok, isSpace c = false :=
    fun tok h => htoks tok (List.take_subset _ _ h)
  have hdrop : ∀ tok ∈ (pySplit t).drop ((pySplit t).length - maxTok / 2),
      tok ≠ [] ∧ ∀ c ∈ tok, isSpace c = false :=
    fun tok h => htoks tok (List.drop_subset _ _ h)
  have hshape : joinSpace ((pySplit t).take (maxTok / 2)) ++ marker
        ++ joinSpace ((pySplit t).drop ((pySplit t).length - maxTok / 2))
      = joinSpace ((pySplit t).take (maxTok / 2))
        ++ '\n' :: (markerMid
          ++ '\n' :: joinSpace ((pySplit t).drop ((pySplit t).length - maxTok / 2))) := by
    rw [marker_eq]
    simp [List.append_assoc]
  rw [hshape]
  rw [pySplit_sep '\n' (by decide) (joinSpace ((pySplit t).take (maxTok / 2)))
    (markerMid ++ '\n' :: joinSpace ((pySplit t).drop ((pySplit t).length - maxTok / 2)))]
  rw [pySplit_sep '\n' (by decide) markerMid
    (joinSpace ((pySplit t).drop ((pySplit t).length - maxTok / 2)))]
  rw [pySplit_joinSpace _ htake, pySplit_joinSpace _ hdrop]
  simp [List.append_assoc]

theorem estimate_summarize_trunc (t : List Char) (maxTok : Nat)
    (h2 : 2 ≤ maxTok) (hgt : maxTok < estimate t) :
    estimate (summarizeFile t maxTok) = 2 * (maxTok / 2) + 8 := by
  have hlen : maxTok < (pySplit t).length := hgt
  have hhalf : maxTok / 2 ≤ (pySplit t).length := by omega
  unfold estimate
  rw [pySplit_summarize_trunc t maxTok h2 hgt]
  have hmid : (pySplit markerMid).length = 8 := by decide
  simp [hmid]
  omega

theorem joinSpace_no_newline (toks : List (List Char))
    (h : ∀ tok ∈ toks, ∀ c ∈ tok, isSpace c = false) :
    ∀ c ∈ joinSpace toks, c ≠ '\n' := by
  intro c hc
  rcases joinSpace_chars toks h c hc with h1 | h1
  · subst h1; decide
  · intro he; subst he; simp [isSpace] at h1

/-! ### Claims about the summarizer -/

/-- C4 (amended): for every text `t` and budget, `summarize` returns
`t` unchanged IF `estimate t ≤ maxTok`.  The spec's converse direction
fails: a text that already has the head-marker-tail shape can be a
fixed point of the truncation branch (see the counterexample). -/
theorem C4_summarizer_identity_if (t : List Char) (maxTok : Nat)
    (h : estimate t ≤ maxTok) : summarizeFile t maxTok = t := by
  unfold estimate at h
  unfold summarizeFile
  simp [h]

/-- Witness for C4 at a concrete input: `a b` fits a budget of 5. -/
theorem C4_summarizer_identity_if_witness :
    estimate tAB ≤ 5 ∧ summarizeFile tAB 5 = tAB :=
  ⟨by decide, C4_summarizer_identity_if tAB 5 (by decide)⟩

/-- C4 counterexample: the claim's `iff` is false on the code.  The
text `"a b\n<marker>\nc d"` has 12 whitespace tokens, so
`estimate t ≤ 4` fails, yet `summarize(t, 4)` returns `t` unchanged:
its first 2 and last 2 tokens joined around the marker reproduce `t`
exactly. -/
theorem C4_summarizer_identity_iff_cex :
    ¬ (summarizeFile tFix 4 = tFix ↔ estimate tFix ≤ 4) := by decide

/-- C5 (amended to budgets `maxTok ≥ 2`, i.e. `maxTok / 2 ≥ 1`): on
the truncation branch the output contains the marker exactly once, its
token count is `2 * (maxTok / 2)` plus the marker's 8 tokens, and the
kept tokens are exactly the first and last `maxTok / 2` whitespace
tokens of the input.  For `maxTok ∈ {0, 1}` the statement fails on the
code because `tokens[-0:]` keeps every token (the C6 slip). -/
theorem C5_truncation_shape (t : List Char) (maxTok : Nat)
    (h2 : 2 ≤ maxTok) (hgt : maxTok < estimate t) :
    countOccur marker (summarizeFile t maxTok) = 1 ∧
    estimate (summarizeFile t maxTok) = 2 * (maxTok / 2) + 8 ∧
    pySplit (summarizeFile t maxTok)
      = (pySplit t).take (maxTok / 2) ++ pySplit markerMid
        ++ (pySplit t).drop ((pySplit t).length - maxTok / 2) := by
  refine ⟨?_, estimate_summarize_trunc t maxTok h2 hgt,
    pySplit_summarize_trunc t maxTok h2 hgt⟩
  rw [summarizeFile_trunc t maxTok h2 hgt]
  have htoks := pySplit_tokens t
  apply countOccur_marker_once
  · exact joinSpace_no_newline _
      (fun tok h c hc => (htoks tok (List.take_subset _ _ h)).2 c hc)
  · exact joinSpace_no_newline _
      (fun tok h c hc => (htoks tok (List.drop_subset _ _ h)).2 c hc)

/-- Witness for C5 at `t = "a b c"`, `maxTok = 2`: the output keeps
`a` and `c` around one marker and has 10 tokens. -/
theorem C5_truncation_shape_witness :
    countOccur marker (summarizeFile tABC 2) = 1 ∧
    estimate (summarizeFile tABC 2) = 2 * (2 / 2) + 8 ∧
    pySplit (summarizeFile tABC 2)
      = (pySplit tABC).take (2 / 2) ++ pySplit markerMid
        ++ (pySplit tABC).drop ((pySplit tABC).length - 2 / 2) :=
  C5_truncation_shape tABC 2 (by decide) (by decide)

/-- C5 counterexample: as universally stated over all budgets the claim
fails at `maxTok = 0`: `"a b"` has 2 > 0 tokens, but the output has
8 + 2 = 10 tokens, not `2 * (0 / 2) + 8 = 8`, because `tokens[-0:]`
keeps the whole token list. -/
theorem C5_truncation_shape_cex :
    0 < estimate tAB ∧ ¬ estimate (summarizeFile tAB 0) = 2 * (0 / 2) + 8 := by
  decide

/-- C6: the code bug, evaluated.  For the two-token text `a b` and
`max_tokens = 0`, `_summarize_file` returns the marker followed by ALL
tokens of the input (Python `tokens[-0:]` is the whole list), not a
marker-only string: the output is `marker ++ "a b"`, its token count
is 10, and both tokens of the input appear after the marker's 8
tokens. -/
theorem C6_zero_budget_eval :
    summarizeFile tAB 0 = marker ++ tAB ∧
    estimate (summarizeFile tAB 0) = 10 ∧
    pySplit (summarizeFile tAB 0) = pySplit markerMid ++ [['a'], ['b']] := by
  decide

/-! ### Claims about the structural summary and the cache -/

/-- C3: the code bug, evaluated.  Python parses lines 128–134 of
`src/main.py` as `project_summary = (header + list + ellipsis) if
len(files) > 20 else ""`, so for a project with 20 or fewer files the
structural summary is the EMPTY string and the built document starts
with the bare `"\n\n"` separator — the claim says a summary listing
the discovered paths is present on every build. -/
theorem C3_structural_summary_missing :
    projectSummary "proj".toList [pAf] = [] ∧
    (buildContext fsHello [pAf] [] 1000 "proj".toList).1
      = '\n' :: '\n' :: mkBlock pAf "hello world".toList := by
  decide

theorem cacheFind_cacheInsert (c : Cache) (p : RelPath) (r : CacheRecord) :
    cacheFind (cacheInsert c p r) p = some r := by
  simp [cacheInsert, cacheFind]

/-- After any `getOrLoad`, the cache holds a record for the requested
path whose timestamp is the file's current one and whose content and
token fields are exactly what the call returned. -/
theorem getOrLoad_cache_self (fs : RelPath → FileData) (cache : Cache) (p : RelPath) :
    ∃ r : CacheRecord, cacheFind (getOrLoad fs cache p).cache p = some r ∧
      r.timestamp = (fs p).mtime ∧
      r.content = (getOrLoad fs cache p).content ∧
      r.tokens = (getOrLoad fs cache p).tokens := by
  cases hf : cacheFind cache p with
  | none =>
    refine ⟨⟨(fs p).mtime, summarizeFile (fs p).content 500, estimate (fs p).content⟩,
      ?_, rfl, ?_, ?_⟩ <;>
      simp [getOrLoad, loadFresh, hf, cacheFind_cacheInsert]
  | some r0 =>
    by_cases ht : r0.timestamp = (fs p).mtime
    · exact ⟨r0, by simp [getOrLoad, hf, ht], ht, by simp [getOrLoad, hf, ht],
        by simp [getOrLoad, hf, ht]⟩
    · refine ⟨⟨(fs p).mtime, summarizeFile (fs p).content 500, estimate (fs p).content⟩,
        ?_, rfl, ?_, ?_⟩ <;>
        simp [getOrLoad, loadFresh, hf, ht, cacheFind_cacheInsert]

/-- C2: the cache contract.  Run `getOrLoad` twice on the same path,
with the filesystem in state `fs1` at the first call and `fs2` at the
second.  If the modification timestamp is unchanged, the second call
returns the identical `(content, tokens)` pair and performs no read;
if it changed, the record is invalid and the second call re-reads,
returning the new content (summarized at the 500-token cap) and the
new raw token count. -/
theorem C2_cache_contract (fs1 fs2 : RelPath → FileData) (cache : Cache) (p : RelPath) :
    ((fs2 p).mtime = (fs1 p).mtime →
      (getOrLoad fs2 (getOrLoad fs1 cache p).cache p).content
          = (getOrLoad fs1 cache p).content ∧
      (getOrLoad fs2 (getOrLoad fs1 cache p).cache p).tokens
          = (getOrLoad fs1 cache p).tokens ∧
      (getOrLoad fs2 (getOrLoad fs1 cache p).cache p).didRead = false) ∧
    (¬ (fs2 p).mtime = (fs1 p).mtime →
      (getOrLoad fs2 (getOrLoad fs1 cache p).cache p).didRead = true ∧
      (getOrLoad fs2 (getOrLoad fs1 cache p).cache p).content
          = summarizeFile (fs2 p).content 500 ∧
      (getOrLoad fs2 (getOrLoad fs1 cache p).cache p).tokens
          = estimate (fs2 p).content) := by
  obtain ⟨r, hfind, hts, hcontent, htokens⟩ := getOrLoad_cache_self fs1 cache p
  generalize hR : getOrLoad fs1 cache p = R at hfind hcontent htokens ⊢
  constructor
  · intro heq
    have hsame : r.timestamp = (fs2 p).mtime := by rw [hts, heq]
    refine ⟨?_, ?_, ?_⟩ <;> simp [getOrLoad, hfind, hsame, hcontent, htokens]
  · intro hne
    have hdiff : ¬ r.timestamp = (fs2 p).mtime := by
      rw [hts]; exact fun h => hne h.symm
    refine ⟨?_, ?_, ?_⟩ <;> simp [getOrLoad, hfind, hdiff, loadFresh]

/-- Witness for C2 at a concrete state: an unchanged file is a cache
hit with identical results and no read. -/
theorem C2_cache_contract_witness :
    (getOrLoad fsHello (getOrLoad fsHello [] pAf).cache pAf).content
        = (getOrLoad fsHello [] pAf).content ∧
    (getOrLoad fsHello (getOrLoad fsHello [] pAf).cache pAf).tokens
        = (getOrLoad fsHello [] pAf).tokens ∧
    (getOrLoad fsHello (getOrLoad fsHello [] pAf).cache pAf).didRead = false :=
  (C2_cache_contract fsHello fsHello [] pAf).1 rfl

/-! ### Claims about the budget loop -/

theorem getOrLoad_tokens_spec (fs : RelPath → FileData) (cache : Cache) (p : RelPath) :
    (getOrLoad fs cache p).tokens = tokenSpec fs cache p := by
  cases hf : cacheFind cache p with
  | none => simp [getOrLoad, loadFresh, tokenSpec, hf]
  | some r0 =>
    by_cases ht : r0.timestamp = (fs p).mtime <;>
      simp [getOrLoad, loadFresh, tokenSpec, hf, ht]

theorem getOrLoad_content_spec (fs : RelPath → FileData) (cache : Cache) (p : RelPath) :
    (getOrLoad fs cache p).content = contentSpec fs cache p := by
  cases hf : cacheFind cache p with
  | none => simp [getOrLoad, loadFresh, contentSpec, hf]
  | some r0 =>
    by_cases ht : r0.timestamp = (fs p).mtime <;>
      simp [getOrLoad, loadFresh, contentSpec, hf, ht]

theorem tokenSpec_congr (fs : RelPath → FileData) (c c0 : Cache) (p : RelPath)
    (h : cacheFind c p = cacheFind c0 p) : tokenSpec fs c p = tokenSpec fs c0 p := by
  unfold tokenSpec
  rw [h]

theorem contentSpec_congr (fs : RelPath → FileData) (c c0 : Cache) (p : RelPath)
    (h : cacheFind c p = cacheFind c0 p) : contentSpec fs c p = contentSpec fs c0 p := by
  unfold contentSpec
  rw [h]

/-- `getOrLoad` touches only its own key: lookups at other paths are
unchanged. -/
theorem cacheFind_getOrLoad_ne (fs : RelPath → FileData) (cache : Cache) (p q : RelPath)
    (h : ¬ p = q) : cacheFind (getOrLoad fs cache p).cache q = cacheFind cache q := by
  cases hf : cacheFind cache p with
  | none => simp [getOrLoad, loadFresh, cacheInsert, cacheFind, hf, h]
  | some r0 =>
    by_cases ht : r0.timestamp = (fs p).mtime <;>
      simp [getOrLoad, loadFresh, cacheInsert, cacheFind, hf, ht, h]

/-- The budget loop keeps exactly a greedy prefix of its file list: the
blocks are the mapped prefix of length `k`, the prefix's token sum fits
the budget, and when any file remains, adding the next file's tokens
would exceed the budget. -/
theorem buildLoop_characterization (fs : RelPath → FileData) (maxT : Nat) :
    ∀ (l : List RelPath) (c c0 : Cache) (total : Nat),
      l.Nodup → (∀ p ∈ l, cacheFind c p = cacheFind c0 p) → total ≤ maxT →
      ∃ k, k ≤ l.length ∧
        (buildLoop fs maxT l c total).blocks
          = (l.take k).map (fun p => mkBlock p (contentSpec fs c0 p)) ∧
        total + ((l.take k).map (tokenSpec fs c0)).sum ≤ maxT ∧
        (k < l.length →
          maxT < total + ((l.take (k + 1)).map (tokenSpec fs c0)).sum) := by
  intro l
  induction l with
  | nil =>
    intro c c0 total _ _ htot
    exact ⟨0, by simp, by simp [buildLoop], by simpa using htot, by simp⟩
  | cons p rest ih =>
    intro c c0 total hnd hagree htot
    have hp : cacheFind c p = cacheFind c0 p := hagree p (by simp)
    have htok : (getOrLoad fs c p).tokens = tokenSpec fs c0 p := by
      rw [getOrLoad_tokens_spec, tokenSpec_congr fs c c0 p hp]
    have hcont : (getOrLoad fs c p).content = contentSpec fs c0 p := by
      rw [getOrLoad_content_spec, contentSpec_congr fs c c0 p hp]
    by_cases hbr : total + (getOrLoad fs c p).tokens > maxT
    · refine ⟨0, by simp, ?_, by simpa using htot, ?_⟩
      · simp [buildLoop, hbr]
      · intro _
        simpa [htok] using hbr
    · have hnotmem : p ∉ rest := (List.nodup_cons.mp hnd).1
      have hagree' : ∀ q ∈ rest, cacheFind (getOrLoad fs c p).cache q = cacheFind c0 q := by
        intro q hq
        have hpq : ¬ p = q := fun he => hnotmem (he ▸ hq)
        rw [cacheFind_getOrLoad_ne fs c p q hpq]
        exact hagree q (List.mem_cons_of_mem p hq)
      have htot' : total + (getOrLoad fs c p).tokens ≤ maxT := Nat.le_of_not_lt hbr
      obtain ⟨k', hk'len, hb, hsum, hmax⟩ :=
        ih (getOrLoad fs c p).cache c0 (total + (getOrLoad fs c p).tokens)
          (List.nodup_cons.mp hnd).2 hagree' htot'
      refine ⟨k' + 1, by simpa using Nat.succ_le_succ hk'len, ?_, ?_, ?_⟩
      · simp only [buildLoop, hbr, if_false, List.take_succ_cons, List.map_cons]
        rw [hb, hcont]
      · simp only [List.take_succ_cons, List.map_cons, List.sum_cons]
        rw [htok] at hsum
        omega
      · intro hlt
        have hk'lt : k' < rest.length := by simpa using hlt
        have := hmax hk'lt
        rw [htok] at this
        simp only [List.take_succ_cons, List.map_cons, List.sum_cons]
        omega

/-- C1: the budget cutoff is a hard stop.  In general the kept blocks
are a greedy prefix of the sorted file list — the prefix fits the
budget and, when a file remains, the very next file's token count would
push the total over, so it and everything after it is dropped.  On the
concrete [100, 100, 100]-token project with `total_budget = 150`,
exactly the first sorted file is kept. -/
theorem C1_budget_hard_cutoff :
    (∀ (fs : RelPath → FileData) (files : List RelPath) (cache : Cache) (maxT : Nat),
      files.Nodup →
      ∃ k, k ≤ (sortFiles files).length ∧
        (buildLoop fs maxT (sortFiles files) cache 0).blocks
          = ((sortFiles files).take k).map (fun p => mkBlock p (contentSpec fs cache p)) ∧
        (((sortFiles files).take k).map (tokenSpec fs cache)).sum ≤ maxT ∧
        (k < (sortFiles files).length →
          maxT < (((sortFiles files).take (k + 1)).map (tokenSpec fs cache)).sum)) ∧
    (buildLoop fsHundred 150 (sortFiles [pAf, pBf, pCf]) [] 0).blocks
      = [mkBlock pAf content100] := by
  constructor
  · intro fs files cache maxT hnd
    have hnd' : (sortFiles files).Nodup :=
      ((List.perm_insertionSort _ files).nodup_iff).mpr hnd
    have h := buildLoop_characterization fs maxT (sortFiles files) cache cache 0 hnd'
      (fun _ _ => rfl) (Nat.zero_le maxT)
    simpa using h
  · set_option maxRecDepth 8000 in decide

/-! ### Claims about history trimming -/

/-- The history loop on the reversed (newest-first) line list keeps a
greedy prefix: it equals the stripped prefix of length `n` restored to
chronological order, the prefix's token sum fits the budget, and when a
line remains, adding it would exceed the budget. -/
theorem loadRecentAux_characterization (maxT : Nat) :
    ∀ (rev : List (List Char)) (acc : Nat), acc ≤ maxT →
      ∃ n, n ≤ rev.length ∧
        loadRecentAux maxT rev acc = ((rev.take n).map pyStrip).reverse ∧
        acc + ((rev.take n).map estimate).sum ≤ maxT ∧
        (n < rev.length →
          maxT < acc + ((rev.take (n + 1)).map estimate).sum) := by
  intro rev
  induction rev with
  | nil =>
    intro acc hacc
    exact ⟨0, by simp, by simp [loadRecentAux], by simpa using hacc, by simp⟩
  | cons l rest ih =>
    intro acc hacc
    by_cases hbr : acc + estimate l > maxT
    · refine ⟨0, by simp, by simp [loadRecentAux, hbr], by simpa using hacc, ?_⟩
      intro _
      simpa using hbr
    · obtain ⟨n', hn'len, hb, hsum, hmax⟩ := ih (acc + estimate l) (Nat.le_of_not_lt hbr)
      refine ⟨n' + 1, by simpa using Nat.succ_le_succ hn'len, ?_, ?_, ?_⟩
      · simp only [loadRecentAux, hbr, if_false, List.take_succ_cons, List.map_cons,
          List.reverse_cons]
        rw [hb]
      · simp only [List.take_succ_cons, List.map_cons, List.sum_cons]
        omega
      · intro hlt
        have := hmax (by simpa using hlt)
        simp only [List.take_succ_cons, List.map_cons, List.sum_cons]
        omega

theorem sum_map_drop_le (f : List Char → Nat) :
    ∀ (L : List (List Char)) (m : Nat), ((L.drop m).map f).sum ≤ (L.map f).sum := by
  intro L
  induction L with
  | nil => intro m; simp
  | cons x xs ih =>
    intro m
    cases m with
    | zero => simp
    | succ m' =>
      simp only [List.drop_succ_cons, List.map_cons, List.sum_cons]
      exact le_trans (ih m') (Nat.le_add_left _ _)

theorem sum_map_drop_anti (f : List Char → Nat) (l : List (List Char)) (j j' : Nat)
    (h : j ≤ j') : ((l.drop j').map f).sum ≤ ((l.drop j).map f).sum := by
  have h1 : l.drop j' = (l.drop j).drop (j' - j) := by
    rw [List.drop_drop]
    congr 1
    omega
  rw [h1]
  exact sum_map_drop_le f (l.drop j) (j' - j)

/-- C7: history trimming.  In general `_load_history` retains exactly
a chronological suffix of the log lines: the suffix's token sum fits
the budget, every longer suffix would exceed it, and every retained
line individually fits the budget (so an oversized line is excluded
entirely).  On the concrete four 5-token lines with `max_tokens = 12`,
exactly the last two lines survive, in chronological order, joined by
a newline. -/
theorem C7_history_trimming :
    (∀ (lines : List (List Char)) (maxT : Nat),
      ∃ k, k ≤ lines.length ∧
        loadRecentAux maxT lines.reverse 0 = (lines.drop k).map pyStrip ∧
        ((lines.drop k).map estimate).sum ≤ maxT ∧
        (∀ j, j < k → maxT < ((lines.drop j).map estimate).sum) ∧
        (∀ l ∈ lines.drop k, estimate l ≤ maxT)) ∧
    loadRecent [hl1, hl2, hl3, hl4] 12 = pyStrip hl3 ++ '\n' :: pyStrip hl4 := by
  constructor
  · intro lines maxT
    obtain ⟨n, hn, hb, hsum, hmax⟩ :=
      loadRecentAux_characterization maxT lines.reverse 0 (Nat.zero_le _)
    rw [List.length_reverse] at hn
    have htake : lines.reverse.take n = (lines.drop (lines.length - n)).reverse :=
      List.take_reverse
    refine ⟨lines.length - n, by omega, ?_, ?_, ?_, ?_⟩
    · rw [hb, htake, List.map_reverse, List.reverse_reverse]
    · have := hsum
      rw [htake, List.map_reverse, List.sum_reverse] at this
      simpa using this
    · intro j hj
      have hnlt : n < lines.length := by omega
      have hmax' := hmax (by rw [List.length_reverse]; omega)
      have htake' : lines.reverse.take (n + 1)
          = (lines.drop (lines.length - (n + 1))).reverse := List.take_reverse
      rw [htake', List.map_reverse, List.sum_reverse] at hmax'
      have hanti : ((lines.drop (lines.length - (n + 1))).map estimate).sum
          ≤ ((lines.drop j).map estimate).sum := by
        apply sum_map_drop_anti
        omega
      omega
    · intro l hl
      have hmem : estimate l ∈ (lines.drop (lines.length - n)).map estimate :=
        List.mem_map_of_mem estimate hl
      have hle : estimate l ≤ ((lines.drop (lines.length - n)).map estimate).sum :=
        List.le_sum_of_mem hmem
      have := hsum
      rw [htake, List.map_reverse, List.sum_reverse] at this
      omega
  · decide

/-! ### Claims about priority ordering -/

theorem strLe_total : ∀ a b : List Char, strLe a b = true ∨ strLe b a = true := by
  intro a
  induction a with
  | nil => intro b; left; simp [strLe]
  | cons x xs ih =>
    intro b
    cases b with
    | nil => right; simp [strLe]
    | cons y ys =>
      rcases lt_trichotomy x y with h | h | h
      · left; simp [strLe, h]
      · subst h
        rcases ih ys with h2 | h2
        · left; simp [strLe, h2]
        · right; simp [strLe, h2]
      · right; simp [strLe, h]

theorem strLe_trans :
    ∀ a b c : List Char, strLe a b = true → strLe b c = true → strLe a c = true := by
  intro a
  induction a with
  | nil => intro b c _ _; simp [strLe]
  | cons x xs ih =>
    intro b c hab hbc
    cases b with
    | nil => simp [strLe] at hab
    | cons y ys =>
      cases c with
      | nil => simp [strLe] at hbc
      | cons z zs =>
        simp only [strLe, Bool.or_eq_true, Bool.and_eq_true, decide_eq_true_eq] at hab hbc ⊢
        rcases hab with h1 | ⟨h1, h1'⟩
        · rcases hbc with h2 | ⟨h2, h2'⟩
          · exact Or.inl (lt_trans h1 h2)
          · exact Or.inl (by rw [← h2]; exact h1)
        · rcases hbc with h2 | ⟨h2, h2'⟩
          · exact Or.inl (by rw [h1]; exact h2)
          · exact Or.inr ⟨h1.trans h2, ih ys zs h1' h2'⟩

theorem keyLe_total : ∀ a b : RelPath, keyLe a b = true ∨ keyLe b a = true := by
  intro a b
  rcases lt_trichotomy (priorityIdx a) (priorityIdx b) with h | h | h
  · left; simp [keyLe, h]
  · rcases strLe_total (pathStr a) (pathStr b) with h2 | h2
    · left; simp [keyLe, h, h2]
    · right; simp [keyLe, h, h2]
  · right; simp [keyLe, h]

theorem keyLe_trans : ∀ a b c : RelPath,
    keyLe a b = true → keyLe b c = true → keyLe a c = true := by
  intro a b c hab hbc
  simp only [keyLe, Bool.or_eq_true, Bool.and_eq_true, decide_eq_true_eq] at hab hbc ⊢
  rcases hab with h1 | ⟨h1, h1'⟩
  · rcases hbc with h2 | ⟨h2, h2'⟩
    · exact Or.inl (lt_trans h1 h2)
    · exact Or.inl (by rw [← h2]; exact h1)
  · rcases hbc with h2 | ⟨h2, h2'⟩
    · exact Or.inl (by rw [h1]; exact h2)
    · exact Or.inr ⟨h1.trans h2, strLe_trans _ _ _ h1' h2'⟩

/-- C8: the build order.  `sortFiles` permutes the discovered files
into a list sorted by the key `(priority index of extension, path
string)`; an extension in the fixed priority list gets its index
(strictly less than 5), any other extension gets 5 and so sorts after
every listed extension, and ties are broken by the lexicographic path
comparison `strLe`.  On the concrete example, `["b.md", "a.py",
"c.txt"]` is processed as `["a.py", "b.md", "c.txt"]`. -/
theorem C8_priority_ordering :
    (∀ files : List RelPath,
      (sortFiles files).Perm files ∧
      (sortFiles files).Sorted (fun a b => keyLe a b = true)) ∧
    (∀ p : RelPath,
      (pySuffix (nameOf p) ∈ priorityOrder → priorityIdx p < priorityOrder.length) ∧
      (pySuffix (nameOf p) ∉ priorityOrder → priorityIdx p = priorityOrder.length)) ∧
    sortFiles [pMd, pAf, pTxt] = [pAf, pMd, pTxt] := by
  haveI htot : IsTotal RelPath (fun a b => keyLe a b = true) := ⟨keyLe_total⟩
  haveI htr : IsTrans RelPath (fun a b => keyLe a b = true) := ⟨keyLe_trans⟩
  refine ⟨fun files => ⟨List.perm_insertionSort _ files, List.sorted_insertionSort _ files⟩,
    fun p => ⟨?_, ?_⟩, by decide⟩
  · intro hmem
    exact List.findIdx_lt_length_of_exists ⟨pySuffix (nameOf p), hmem, by simp⟩
  · intro hnmem
    apply List.findIdx_eq_length_of_false
    intro x hx
    simp only [beq_eq_false_iff_ne, ne_eq]
    exact fun he => hnmem (he ▸ hx)

/-! ### Claims about exclusion and the chat turn -/

/-- C9: the exclusion rule.  For a nonempty pattern list — and the
scanner always runs with one; the default is
`["venv", "*.log", "__pycache__", "migrations"]` — a file is excluded
exactly when its final name matches one of the globs or one of the
pattern strings occurs among its path segments; the scanner keeps
exactly the files that are not excluded; and a file under a
`node_modules` directory is excluded whenever `node_modules` is among
the patterns, regardless of any filename match. -/
theorem C9_exclusion_rule :
    (∀ (patterns : List (List Char)) (parts : RelPath), patterns ≠ [] →
      (isExcluded patterns parts = true ↔
        (∃ pat ∈ patterns, pathMatch parts pat = true) ∨
        (∃ seg ∈ patterns, seg ∈ parts))) ∧
    (∀ (patterns : List (List Char)) (candidates : List RelPath) (p : RelPath),
      p ∈ walkKeep patterns candidates ↔
        p ∈ candidates ∧ isExcluded patterns p = false) ∧
    (∀ patterns : List (List Char), "node_modules".toList ∈ patterns →
      isExcluded patterns nodeParts = true) := by
  refine ⟨?_, ?_, ?_⟩
  · intro patterns parts hne
    unfold isExcluded
    rw [List.any_eq_true]
    constructor
    · rintro ⟨pat, hpat, hbody⟩
      rcases Bool.or_eq_true_iff.mp hbody with hm | hinner
      · exact Or.inl ⟨pat, hpat, hm⟩
      · rw [List.any_eq_true] at hinner
        obtain ⟨seg, hseg, hcont⟩ := hinner
        exact Or.inr ⟨seg, hseg, by
          simpa using List.mem_of_elem_eq_true hcont⟩
    · rintro (⟨pat, hpat, hm⟩ | ⟨seg, hseg, hin⟩)
      · exact ⟨pat, hpat, Bool.or_eq_true_iff.mpr (Or.inl hm)⟩
      · cases patterns with
        | nil => exact absurd rfl hne
        | cons q qs =>
          refine ⟨q, by simp, Bool.or_eq_true_iff.mpr (Or.inr ?_)⟩
          rw [List.any_eq_true]
          exact ⟨seg, hseg, List.elem_eq_true_of_mem hin⟩
  · intro patterns candidates p
    unfold walkKeep
    rw [List.mem_filter]
    simp
  · intro patterns h
    unfold isExcluded
    rw [List.any_eq_true]
    refine ⟨"node_modules".toList, h, Bool.or_eq_true_iff.mpr (Or.inr ?_)⟩
    rw [List.any_eq_true]
    exact ⟨"node_modules".toList, h, by decide⟩

theorem streamAccum_error :
    ∀ (stream : List StreamEvent) (acc : List Char), none ∈ stream →
      streamAccum stream acc = Except.error () := by
  intro stream
  induction stream with
  | nil => intro acc h; simp at h
  | cons e rest ih =>
    intro acc h
    cases e with
    | none => rfl
    | some c =>
      have : none ∈ rest := by
        rcases List.mem_cons.mp h with h1 | h1
        · exact absurd h1 (by simp)
        · exact h1
      exact ih (acc ++ c) this

theorem streamAccum_ok :
    ∀ (stream : List StreamEvent) (acc : List Char), none ∉ stream →
      streamAccum stream acc
        = Except.ok (acc ++ (stream.map (fun e => e.getD [])).flatten) := by
  intro stream
  induction stream with
  | nil => intro acc _; simp [streamAccum]
  | cons e rest ih =>
    intro acc h
    cases e with
    | none => exact absurd (by simp) h
    | some c =>
      have hrest : none ∉ rest := fun hr => h (List.mem_cons_of_mem _ hr)
      show streamAccum rest (acc ++ c) = _
      rw [ih (acc ++ c) hrest]
      simp [List.append_assoc]

/-- C10: chat-turn atomicity.  If the model stream raises at any point
before it is fully consumed, the history log is left exactly as it was
— the error handler writes nothing.  Only when the stream completes are
the user line and the assistant line (carrying the fully accumulated
reply) appended, in that order.  The concrete instance shows a stream
failing after one fragment leaving a one-line log untouched. -/
theorem C10_chat_turn_atomicity :
    (∀ (historyLines : List (List Char)) (prompt : List Char) (stream : List StreamEvent),
      none ∈ stream → chatTurn historyLines prompt stream = historyLines) ∧
    (∀ (historyLines : List (List Char)) (prompt : List Char) (stream : List StreamEvent),
      none ∉ stream →
      chatTurn historyLines prompt stream
        = historyLines ++ [userLine prompt,
            assistantLine ((stream.map (fun e => e.getD [])).flatten)]) ∧
    chatTurn [hl1] tAB [some tABC, none] = [hl1] := by
  refine ⟨?_, ?_, by decide⟩
  · intro historyLines prompt stream h
    unfold chatTurn chatAppendLines
    rw [streamAccum_error stream [] h]
  · intro historyLines prompt stream h
    unfold chatTurn chatAppendLines
    rw [streamAccum_ok stream [] h]
    simp

end DevAssistant
